import Mathlib

/-!
Verification of the UDP-table lowering pass (`src/V3Udp.cpp`).

The pass walks the AST, classifies each primitive's ports
(`UdpVisitor::visit(AstVar*)`), validates the table against the port lists,
synthesizes a concatenated input-field variable plus a continuous assignment,
and compiles each table line into a mask/compare conditional chained as nested
else branches inside an always process (`visit(AstUdpTable*)`,
`visit(AstUdpTableLine*)`).

The embedding below mirrors those functions over explicit list-based state.
Machine integers are modelled as `Nat`; the fixed-width `V3Number` bit writes
are modelled with an explicit width bound; out-of-bounds `std::vector`
accesses (undefined behavior in the source) are modelled as `Except.error`.
-/

namespace V3Udp

/-- Data-type tag of a variable: `AstBasicDType` (with its `isLogic` flag,
as tested by `VN_CAST(..., BasicDType)` and `isLogic()`), or any other
dtype node, for which the cast fails. -/
inductive UDType where
  | basic (logic : Bool)
  | nonBasic
deriving DecidableEq

/-- An `AstVar` as the pass reads it: name, `isIO()`, `isInput()`, declared
dtype, and declared width. -/
structure UVar where
  name : String
  isIo : Bool
  isInput : Bool
  dtype : UDType
  width : Nat
deriving DecidableEq

/-- One `AstUdpTableLine`: the input symbols and the single output symbol.
Each symbol is the leading character of the table-line value's name
(the source reads `name().substr(0, 1)`; per the upstream grammar every
symbol node exposes one literal character, and the output field is a
one-element list whose element 0 the source reads). -/
structure UdpRow where
  isyms : List Char
  osym : Char
deriving DecidableEq

/-- A 1-bit value as held by the output `V3Number`: 0, 1, or unknown X
(the source writes `setBit(0, 'x')` for any symbol other than 0/1). -/
inductive BitVal where
  | zero
  | one
  | x
deriving DecidableEq

/-! ## Port classifier: `UdpVisitor::visit(AstVar*)` -/

/-- The visitor fields `m_inputVars`, `m_outputVars`, `m_isFirstOutput`,
reset per `AstPrimitive`. -/
structure ClassifyState where
  inputVars : List UVar
  outputVars : List UVar
  isFirstOutput : Bool
deriving DecidableEq

/-- Model of `visit(AstVar*)`: push an IO var onto the input or output list; set
`m_isFirstOutput` when, right after the push, there are no inputs and
exactly one output.  Non-IO vars are ignored. -/
def visitVar (st : ClassifyState) (v : UVar) : ClassifyState :=
  if v.isIo then
    let st1 :=
      if v.isInput then
        { st with inputVars := st.inputVars ++ [v] }
      else
        { st with outputVars := st.outputVars ++ [v] }
    if st1.inputVars.length = 0 ∧ st1.outputVars.length = 1 then
      { st1 with isFirstOutput := true }
    else st1
  else st

/-- Classification of a primitive's variables in declaration order,
starting from the state reset in `visit(AstPrimitive*)`. -/
def classifyPorts (vs : List UVar) : ClassifyState :=
  vs.foldl visitVar ⟨[], [], false⟩

/-! ## Validator: lines 84-97 of `visit(AstUdpTable*)` -/

/-- The diagnostics (`v3error`) the pass can raise, by kind. -/
inductive Diag where
  | outputCount (n : Nat)
  | firstPortNotOutput
  | sequentialUdp
  | inputArity (expected actual : Nat)
deriving DecidableEq

/-- Out-of-bounds `std::vector` accesses in the source (undefined
behavior), by site. -/
inductive UdpCrash where
  | outputsBack
  | outputsIndex
  | inputsIndex
  | inputsBack
  | inputsBegin
deriving DecidableEq

/-- Whether `VN_CAST(childDTypep(), BasicDType)` succeeded and `isLogic()` holds. -/
def isLogicValued (v : UVar) : Bool :=
  match v.dtype with
  | UDType.basic l => l
  | UDType.nonBasic => false

/-- Lines 84-97 of `visit(AstUdpTable*)`: the output-count check (whose
diagnostic is attached to `m_outputVars.back()`), the placement check
(diagnostic attached to `m_inputVars[0]`), the resolution
`m_ofieldVarp = m_outputVars[0]`, and the sequential-UDP check.  Each
vector access is modelled as fallible; the returned list collects the
diagnostics in emission order. -/
def udpTableValidate (st : ClassifyState) : Except UdpCrash (List Diag × UVar) :=
  let outputNum := st.outputVars.length
  match (if outputNum ≠ 1 then
           match st.outputVars.getLast? with
           | some _ => Except.ok [Diag.outputCount outputNum]
           | none => Except.error UdpCrash.outputsBack
         else Except.ok []) with
  | Except.error e => Except.error e
  | Except.ok d1 =>
    match (if st.isFirstOutput = false ∧ outputNum ≠ 0 then
             match st.inputVars.head? with
             | some _ => Except.ok [Diag.firstPortNotOutput]
             | none => Except.error UdpCrash.inputsIndex
           else Except.ok []) with
    | Except.error e => Except.error e
    | Except.ok d2 =>
      match st.outputVars.head? with
      | none => Except.error UdpCrash.outputsIndex
      | some ofield =>
        let d3 := if isLogicValued ofield then [Diag.sequentialUdp] else []
        Except.ok (d1 ++ d2 ++ d3, ofield)

/-! ## Mask/compare numbers: lines 147-163 of `visit(AstUdpTableLine*)` -/

/-- Model of `V3Number::setBit` on a width-`w` number (the number library is external
to this file; a fixed-width number drops writes at or past its width).  In
the pass every number starts zeroed and each bit index is written once, so
writing a 0 bit leaves the value unchanged; writing a 1 bit sets it with a
word-or, as the library does. -/
def setBitN (w i : Nat) (b : Bool) (x : Nat) : Nat :=
  if i < w then
    if b then x ||| 2 ^ i
    else x - 2 ^ i * (x / 2 ^ i % 2)
  else x

/-- The loop of lines 149-163: walk the row's input symbols with a running
`bitIndex`, setting mask bit 1 / compare bit 0 for symbol 0, mask 1 /
compare 1 for symbol 1, and mask 0 / compare 0 for anything else. -/
def maskCmpGo (w : Nat) : Nat → Nat → Nat → List Char → Nat × Nat
  | _, mask, cmp, [] => (mask, cmp)
  | i, mask, cmp, c :: rest =>
    if c = '0' then
      maskCmpGo w (i + 1) (setBitN w i true mask) (setBitN w i false cmp) rest
    else if c = '1' then
      maskCmpGo w (i + 1) (setBitN w i true mask) (setBitN w i true cmp) rest
    else
      maskCmpGo w (i + 1) (setBitN w i false mask) (setBitN w i false cmp) rest

/-- The `(maskNum, cmpNum)` pair of a row: both numbers are allocated with
width `m_inputNum` and zero value, then filled by the symbol loop. -/
def buildMaskCmp (w : Nat) (syms : List Char) : Nat × Nat :=
  maskCmpGo w 0 0 0 syms

/-- Mask bit contributed by one symbol: 1 iff the symbol is 0 or 1. -/
def symMaskBit (c : Char) : Bool :=
  c == '0' || c == '1'

/-- Compare bit contributed by one symbol: 1 iff the symbol is 1. -/
def symCmpBit (c : Char) : Bool :=
  c == '1'

/-- Value of a bit list read least-significant-first. -/
def natOfBits : List Bool → Nat
  | [] => 0
  | b :: r => (cond b 1 0) + 2 * natOfBits r

/-- Value of a list of 1-bit numbers read least-significant-first. -/
def valLE : List Nat → Nat
  | [] => 0
  | v :: r => v + 2 * valLE r

/-! ## Expressions and statements synthesized by the pass -/

/-- The expression nodes the pass creates: `AstConst` (with the width of
its `V3Number`), `AstVarRef`, `AstAnd`, `AstEq`, `AstConcat` (first
operand = most significant part). -/
inductive UExpr where
  | const (width : Nat) (val : Nat)
  | varref (name : String)
  | and (a b : UExpr)
  | eq (a b : UExpr)
  | concat (msb lsb : UExpr)

/-- The statement nodes the pass creates inside the always process:
`AstAssign`, and `AstIf` with its then and else statement lists. -/
inductive UStmt where
  | assign (lhs : String) (val : BitVal)
  | ifs (cond : UExpr) (thenp : List UStmt) (elsep : List UStmt)

/-- Bit width of an expression, given the declared widths of variables. -/
def ewidth (wenv : String → Nat) : UExpr → Nat
  | UExpr.const w _ => w
  | UExpr.varref nm => wenv nm
  | UExpr.and a _ => ewidth wenv a
  | UExpr.eq _ _ => 1
  | UExpr.concat a b => ewidth wenv a + ewidth wenv b

/-- Evaluation of a synthesized expression over an environment giving each
variable's current value (`AstEq` yields 1 or 0; `AstConcat` places its
first operand above the second operand's width). -/
def evalE (wenv env : String → Nat) : UExpr → Nat
  | UExpr.const _ v => v
  | UExpr.varref nm => env nm
  | UExpr.and a b => evalE wenv env a &&& evalE wenv env b
  | UExpr.eq a b => if evalE wenv env a = evalE wenv env b then 1 else 0
  | UExpr.concat a b => evalE wenv env a * 2 ^ ewidth wenv b + evalE wenv env b

mutual

/-- One evaluation of a synthesized statement: the list of (variable,
value) assignments it performs, an `AstIf` taking its then branch exactly
when its condition evaluates nonzero. -/
def execStmt (wenv env : String → Nat) : UStmt → List (String × BitVal)
  | UStmt.assign nm v => [(nm, v)]
  | UStmt.ifs c t e =>
    if evalE wenv env c ≠ 0 then execStmts wenv env t else execStmts wenv env e

/-- Sequential evaluation of a statement list. -/
def execStmts (wenv env : String → Nat) : List UStmt → List (String × BitVal)
  | [] => []
  | s :: rest => execStmt wenv env s ++ execStmts wenv env rest

end

/-! ## Row compiler and chain builder: `visit(AstUdpTableLine*)` -/

/-- Name of the synthesized input-field variable. -/
def ifieldName : String :=
  "tableline__ifield__udptmp"

/-- Line 166-168: the row's condition
`AstEq(AstAnd(maskConst, ifieldRef), cmpConst)`, the constants carrying
width `m_inputNum`. -/
def rowCondExpr (w : Nat) (syms : List Char) : UExpr :=
  UExpr.eq
    (UExpr.and (UExpr.const w (buildMaskCmp w syms).1) (UExpr.varref ifieldName))
    (UExpr.const w (buildMaskCmp w syms).2)

/-- Lines 170-179: the row's output symbol resolved to a 1-bit value:
0 for symbol 0, 1 for symbol 1, X for anything else. -/
def resolveOval (c : Char) : BitVal :=
  if c = '0' then BitVal.zero
  else if c = '1' then BitVal.one
  else BitVal.x

/-- The `AstIf` built for one row, before it is linked into the chain:
its condition and its then branch (one assignment to the output port).
Its else list starts empty. -/
structure LineIf where
  cond : UExpr
  thenp : List UStmt

/-- Lines 164-183: compile one row into its conditional. -/
def buildRowIf (w : Nat) (oname : String) (r : UdpRow) : LineIf :=
  ⟨rowCondExpr w r.isyms, [UStmt.assign oname (resolveOval r.osym)]⟩

/-- The chain under construction: the diagnostics raised so far and the
sequence of row conditionals from the process body root down to the
current tail `m_lineStmtp` (each entry hangs in the previous entry's else
list, the tail's else list still empty). -/
structure LineState where
  diags : List Diag
  chain : List LineIf

/-- Model of `visit(AstUdpTableLine*)`: gather the row's input symbols, raise the
arity diagnostic when their count differs from `m_inputNum`, compile the
row (lines 147-183), and link it: the first conditional becomes the sole
body statement, each later one becomes the else branch of the current
tail, which then advances (lines 184-190). -/
def visitUdpTableLine (w : Nat) (oname : String) (st : LineState) (r : UdpRow) : LineState :=
  let st1 :=
    if r.isyms.length ≠ w then
      { st with diags := st.diags ++ [Diag.inputArity w r.isyms.length] }
    else st
  { st1 with chain := st1.chain ++ [buildRowIf w oname r] }

/-- Reassemble the nested `AstIf` structure the tail pointer left behind:
each conditional's else list holds the rest of the chain. -/
def closeChain : List LineIf → List UStmt
  | [] => []
  | l :: rest => [UStmt.ifs l.cond l.thenp (closeChain rest)]

/-- All table lines of one table, visited in declaration order starting
from `m_lineStmtp = nullptr`. -/
def processLines (w : Nat) (oname : String) (rows : List UdpRow) : LineState :=
  rows.foldl (visitUdpTableLine w oname) ⟨[], []⟩

/-- The nested if/else chain described row-first: the first row's
conditional is the sole body statement and each subsequent row's
conditional sits in the previous one's else branch. -/
def nestRows (w : Nat) (oname : String) : List UdpRow → List UStmt
  | [] => []
  | r :: rest =>
    [UStmt.ifs (buildRowIf w oname r).cond (buildRowIf w oname r).thenp
      (nestRows w oname rest)]

/-- A field value satisfies a row's synthesized test:
`(maskNum & field) == cmpNum`. -/
def rowMatches (w : Nat) (v : Nat) (r : UdpRow) : Bool :=
  decide ((buildMaskCmp w r.isyms).1 &&& v = (buildMaskCmp w r.isyms).2)

/-! ## Field synthesizer and tree surgery: `visit(AstUdpTable*)` -/

/-- A child node of an `AstPrimitive` as this pass sees it: a variable, the
UDP table (with its lines), or one of the nodes the pass synthesizes. -/
inductive PrimNode where
  | var (v : UVar)
  | udptable (rows : List UdpRow)
  | assignW (lhs : String) (rhs : UExpr)
  | always (stmts : List UStmt)

/-- The variables among a primitive's children, in declaration order
(these are the nodes `visit(AstVar*)` classifies). -/
def varsOf : List PrimNode → List UVar
  | [] => []
  | PrimNode.var v :: rest => v :: varsOf rest
  | _ :: rest => varsOf rest

/-- Split a primitive's child list at its first `AstUdpTable`. -/
def splitAtTable : List PrimNode → Option (List PrimNode × List UdpRow × List PrimNode)
  | [] => none
  | PrimNode.udptable rows :: rest => some ([], rows, rest)
  | n :: rest =>
    match splitAtTable rest with
    | some (pre, rows, post) => some (n :: pre, rows, post)
    | none => none

/-- The node `m_inputVars.back()` points at: an input IO variable. -/
def isInputVarNode : PrimNode → Bool
  | PrimNode.var v => v.isIo && v.isInput
  | _ => false

/-- Model of `m_inputVars.back()->addNextHere(x)`: link `x` directly after the last
input variable in the sibling list. -/
def insertAfterLastInput (x : PrimNode) : List PrimNode → List PrimNode
  | [] => []
  | n :: rest =>
    if rest.any isInputVarNode then n :: insertAfterLastInput x rest
    else if isInputVarNode n then n :: x :: rest
    else n :: rest

/-- Line 100-101: the new `AstVar` `tableline__ifield__udptmp`, a
MODULETEMP with the unsigned bit dtype of width `m_inputNum` found by
`findBitDType` (a basic, non-logic dtype). -/
def ifieldUVar (w : Nat) : UVar :=
  ⟨ifieldName, false, false, UDType.basic false, w⟩

/-- Lines 104-109: the concatenation over the input variables, seeded with
the first input and extended with each later input as the new most
significant part. -/
def concatOfInputs (first : String) (rest : List String) : UExpr :=
  rest.foldl (fun acc nm => UExpr.concat (UExpr.varref nm) acc) (UExpr.varref first)

/-- Outcome of the pass on one primitive: its rewritten child list, the
diagnostics raised, and the nodes handed to `pushDeletep`. -/
structure PassResult where
  children : List PrimNode
  diags : List Diag
  deleted : List PrimNode

/-- Model of `visit(AstUdpTable*)` on a primitive's child list (ports declared
before the table are the classified ones): validate (lines 84-97), create
the input-field variable and insert it after `m_inputVars.back()` (lines
100-102), build the concatenation assignment and the always process
(lines 104-113), compile the table lines into the chain (line 115, via
`iterateChildren`), then replace the table node with the assignment
followed by the process and release it (lines 116-117).  Vector accesses
on possibly-empty lists are fallible. -/
def processPrim (children : List PrimNode) : Except UdpCrash PassResult :=
  match splitAtTable children with
  | none => Except.ok ⟨children, [], []⟩
  | some (pre, rows, post) =>
    let st := classifyPorts (varsOf pre)
    match udpTableValidate st with
    | Except.error e => Except.error e
    | Except.ok (vdiags, ofieldVar) =>
      match st.inputVars.getLast? with
      | none => Except.error UdpCrash.inputsBack
      | some _ =>
        match st.inputVars.head? with
        | none => Except.error UdpCrash.inputsBegin
        | some firstInput =>
          let n := st.inputVars.length
          let ifvar := PrimNode.var (ifieldUVar n)
          let concatE := concatOfInputs firstInput.name (st.inputVars.tail.map UVar.name)
          let assignNode := PrimNode.assignW ifieldName concatE
          let lineSt := processLines n ofieldVar.name rows
          let alwaysNode := PrimNode.always (closeChain lineSt.chain)
          Except.ok
            ⟨insertAfterLastInput ifvar pre ++ assignNode :: alwaysNode :: post,
             vdiags ++ lineSt.diags,
             [PrimNode.udptable rows]⟩

/-! ## Helper lemmas on bit arithmetic -/

theorem lor_two_pow_of_lt {x i : Nat} (h : x < 2 ^ i) : x ||| 2 ^ i = x + 2 ^ i := by
  apply Nat.eq_of_testBit_eq
  intro j
  rcases Nat.lt_trichotomy j i with hj | hj | hj
  · rw [Nat.testBit_or, Nat.testBit_two_pow_of_ne (Nat.ne_of_gt hj),
      Nat.add_comm x (2 ^ i), Nat.testBit_two_pow_add_gt hj, Bool.or_false]
  · subst hj
    rw [Nat.testBit_or, Nat.testBit_two_pow_self, Nat.add_comm x (2 ^ j),
      Nat.testBit_two_pow_add_eq, Nat.testBit_lt_two_pow h]
    rfl
  · have hxj : x < 2 ^ j := lt_of_lt_of_le h (Nat.pow_le_pow_right (by omega) (le_of_lt hj))
    have hsum : x + 2 ^ i < 2 ^ j := by
      have h2 : 2 ^ (i + 1) ≤ 2 ^ j := Nat.pow_le_pow_right (by omega) hj
      have : x + 2 ^ i < 2 ^ i + 2 ^ i := by omega
      calc x + 2 ^ i < 2 ^ i + 2 ^ i := this
        _ = 2 ^ (i + 1) := by rw [Nat.pow_succ]; omega
        _ ≤ 2 ^ j := h2
    rw [Nat.testBit_or, Nat.testBit_two_pow_of_ne (Nat.ne_of_lt hj),
      Nat.testBit_lt_two_pow hxj, Nat.testBit_lt_two_pow hsum]
    rfl

theorem natOfBits_lt (l : List Bool) : natOfBits l < 2 ^ l.length := by
  induction l with
  | nil => simp [natOfBits]
  | cons b r ih =>
    simp only [natOfBits, List.length_cons, Nat.pow_succ]
    cases b <;> simp only [cond] <;> omega

theorem natOfBits_testBit (l : List Bool) : ∀ i, (natOfBits l).testBit i = l.getD i false := by
  induction l with
  | nil => intro i; simp [natOfBits]
  | cons b r ih =>
    intro i
    cases i with
    | zero =>
      simp only [natOfBits, Nat.testBit_zero, List.getD]
      cases b <;> simp
    | succ j =>
      have hdiv : ((cond b 1 0) + 2 * natOfBits r) / 2 = natOfBits r := by
        cases b <;> simp only [cond] <;> omega
      simp only [natOfBits, Nat.testBit_succ, hdiv, List.getD]
      exact ih j

theorem valLE_lt (l : List Nat) (hl : ∀ v ∈ l, v < 2) : valLE l < 2 ^ l.length := by
  induction l with
  | nil => simp [valLE]
  | cons v r ih =>
    have hv : v < 2 := hl v (by simp)
    have hr : valLE r < 2 ^ r.length := ih (fun a ha => hl a (by simp [ha]))
    simp only [valLE, List.length_cons, Nat.pow_succ]
    omega

theorem valLE_testBit (l : List Nat) (hl : ∀ v ∈ l, v < 2) :
    ∀ i, (valLE l).testBit i = decide (l.getD i 0 = 1) := by
  induction l with
  | nil => intro i; simp [valLE]
  | cons v r ih =>
    intro i
    have hv : v < 2 := hl v (by simp)
    cases i with
    | zero =>
      simp only [valLE, Nat.testBit_zero, List.getD]
      interval_cases v <;> simp
    | succ j =>
      have hdiv : (v + 2 * valLE r) / 2 = valLE r := by omega
      simp only [valLE, Nat.testBit_succ, hdiv, List.getD]
      exact ih (fun a ha => hl a (by simp [ha])) j

theorem setBitN_true_eq {w i x : Nat} (hiw : i < w) (hx : x < 2 ^ i) :
    setBitN w i true x = x + 2 ^ i := by
  simp only [setBitN, if_pos hiw, if_pos rfl]
  exact lor_two_pow_of_lt hx

theorem setBitN_false_eq {w i x : Nat} (hx : x < 2 ^ i) :
    setBitN w i false x = x := by
  have hdiv : x / 2 ^ i = 0 := Nat.div_eq_of_lt hx
  simp [setBitN, hdiv]

theorem maskCmpGo_eq (syms : List Char) : ∀ (w i mask cmp : Nat),
    mask < 2 ^ i → cmp < 2 ^ i → i + syms.length ≤ w →
    maskCmpGo w i mask cmp syms
      = (mask + 2 ^ i * natOfBits (syms.map symMaskBit),
         cmp + 2 ^ i * natOfBits (syms.map symCmpBit)) := by
  induction syms with
  | nil =>
    intro w i mask cmp _ _ _
    simp [maskCmpGo, natOfBits]
  | cons c rest ih =>
    intro w i mask cmp hm hc hw
    have hiw : i < w := by
      simp only [List.length_cons] at hw; omega
    have hw1 : (i + 1) + rest.length ≤ w := by
      simp only [List.length_cons] at hw; omega
    have hm1 : mask + 2 ^ i < 2 ^ (i + 1) := by
      rw [Nat.pow_succ]; omega
    have hmlt : mask < 2 ^ (i + 1) := by
      rw [Nat.pow_succ]; omega
    have hc1 : cmp + 2 ^ i < 2 ^ (i + 1) := by
      rw [Nat.pow_succ]; omega
    have hclt : cmp < 2 ^ (i + 1) := by
      rw [Nat.pow_succ]; omega
    by_cases h0 : c = '0'
    · subst h0
      rw [show maskCmpGo w i mask cmp ('0' :: rest)
            = maskCmpGo w (i + 1) (setBitN w i true mask) (setBitN w i false cmp) rest
          from by simp [maskCmpGo],
        setBitN_true_eq hiw hm, setBitN_false_eq hc,
        ih w (i + 1) (mask + 2 ^ i) cmp hm1 hclt hw1]
      have hmb : symMaskBit '0' = true := by decide
      have hcb : symCmpBit '0' = false := by decide
      simp only [List.map_cons, hmb, hcb, natOfBits, cond, Nat.pow_succ, Prod.mk.injEq]
      constructor <;> ring
    · by_cases h1 : c = '1'
      · subst h1
        rw [show maskCmpGo w i mask cmp ('1' :: rest)
              = maskCmpGo w (i + 1) (setBitN w i true mask) (setBitN w i true cmp) rest
            from by simp [maskCmpGo],
          setBitN_true_eq hiw hm, setBitN_true_eq hiw hc,
          ih w (i + 1) (mask + 2 ^ i) (cmp + 2 ^ i) hm1 hc1 hw1]
        have hmb : symMaskBit '1' = true := by decide
        have hcb : symCmpBit '1' = true := by decide
        simp only [List.map_cons, hmb, hcb, natOfBits, cond, Nat.pow_succ, Prod.mk.injEq]
        constructor <;> ring
      · rw [show maskCmpGo w i mask cmp (c :: rest)
              = maskCmpGo w (i + 1) (setBitN w i false mask) (setBitN w i false cmp) rest
            from by simp [maskCmpGo, h0, h1],
          setBitN_false_eq hm, setBitN_false_eq hc,
          ih w (i + 1) mask cmp hmlt hclt hw1]
        have hmb : symMaskBit c = false := by
          simp [symMaskBit, h0, h1]
        have hcb : symCmpBit c = false := by
          simp [symCmpBit, h1]
        simp only [List.map_cons, hmb, hcb, natOfBits, cond, Nat.pow_succ, Prod.mk.injEq]
        constructor <;> ring

theorem buildMaskCmp_eq {w : Nat} {syms : List Char} (hw : syms.length ≤ w) :
    buildMaskCmp w syms
      = (natOfBits (syms.map symMaskBit), natOfBits (syms.map symCmpBit)) := by
  have h := maskCmpGo_eq syms w 0 0 0 (by omega) (by omega) (by omega)
  simpa [buildMaskCmp] using h

/-! ## Classifier characterization -/

theorem visitVar_inputVars (st : ClassifyState) (v : UVar) :
    (visitVar st v).inputVars
      = st.inputVars ++ (if v.isIo && v.isInput then [v] else []) := by
  simp only [visitVar]
  cases hio : v.isIo <;> cases hin : v.isInput <;> simp only [Bool.and_self,
    Bool.and_false, Bool.false_and, Bool.true_and, if_true, if_false,
    Bool.false_eq_true, ite_false, ite_true, List.append_nil] <;> try rfl
  · split <;> rfl
  · split <;> rfl

theorem visitVar_outputVars (st : ClassifyState) (v : UVar) :
    (visitVar st v).outputVars
      = st.outputVars ++ (if v.isIo && !v.isInput then [v] else []) := by
  simp only [visitVar]
  cases hio : v.isIo <;> cases hin : v.isInput <;> simp only [Bool.not_true,
    Bool.not_false, Bool.and_self, Bool.and_false, Bool.false_and,
    Bool.true_and, if_true, if_false, Bool.false_eq_true, ite_false,
    ite_true, List.append_nil] <;> try rfl
  · split <;> rfl
  · split <;> rfl

theorem foldl_visitVar_inputVars (l : List UVar) : ∀ st : ClassifyState,
    (l.foldl visitVar st).inputVars
      = st.inputVars ++ l.filter (fun v => v.isIo && v.isInput) := by
  induction l with
  | nil => intro st; simp
  | cons v rest ih =>
    intro st
    rw [List.foldl_cons, ih, visitVar_inputVars]
    cases hvi : (fun v : UVar => v.isIo && v.isInput) v
    · simp only at hvi
      simp [List.filter_cons, hvi]
    · simp only at hvi
      simp [List.filter_cons, hvi]

theorem foldl_visitVar_outputVars (l : List UVar) : ∀ st : ClassifyState,
    (l.foldl visitVar st).outputVars
      = st.outputVars ++ l.filter (fun v => v.isIo && !v.isInput) := by
  induction l with
  | nil => intro st; simp
  | cons v rest ih =>
    intro st
    rw [List.foldl_cons, ih, visitVar_outputVars]
    cases hvi : (fun v : UVar => v.isIo && !v.isInput) v
    · simp only at hvi
      simp [List.filter_cons, hvi]
    · simp only at hvi
      simp [List.filter_cons, hvi]

theorem foldl_visitVar_flag (l : List UVar) : ∀ st : ClassifyState,
    (l.foldl visitVar st).isFirstOutput
      = (st.isFirstOutput
          || (st.inputVars.isEmpty && st.outputVars.isEmpty
              && (match l.find? (fun v => v.isIo) with
                  | some v => !v.isInput
                  | none => false))) := by
  induction l with
  | nil =>
    intro st
    simp
  | cons v rest ih =>
    intro st
    rw [List.foldl_cons, ih]
    cases hio : v.isIo
    · have hfind : (v :: rest).find? (fun v => v.isIo) = rest.find? (fun v => v.isIo) :=
        List.find?_cons_of_neg _ (by simp [hio])
      have hst : visitVar st v = st := by
        simp [visitVar, hio]
      rw [hst, hfind]
    · have hfind : (v :: rest).find? (fun v => v.isIo) = some v :=
        List.find?_cons_of_pos _ (by simp [hio])
      rw [hfind]
      cases hin : v.isInput
      · -- v is an output port
        by_cases hc : st.inputVars = [] ∧ st.outputVars = []
        · have hst : visitVar st v
              = ⟨st.inputVars, st.outputVars ++ [v], true⟩ := by
            simp [visitVar, hio, hin, hc.1, hc.2]
          rw [hst]
          simp [hc.1, hc.2, hin]
        · have hcond : ¬(st.inputVars.length = 0 ∧ st.outputVars.length + 1 = 1) := by
            intro h
            exact hc ⟨List.eq_nil_of_length_eq_zero h.1,
              List.eq_nil_of_length_eq_zero (by omega)⟩
          have hst : visitVar st v
              = ⟨st.inputVars, st.outputVars ++ [v], st.isFirstOutput⟩ := by
            simp only [visitVar, hio, if_true, hin, Bool.false_eq_true, ite_false]
            rw [if_neg (by simpa using hcond)]
          rw [hst]
          have h1 : (st.outputVars ++ [v]).isEmpty = false := by
            simp [List.isEmpty_iff]
          cases hie1 : st.inputVars.isEmpty <;> cases hie2 : st.outputVars.isEmpty <;>
            simp_all [List.isEmpty_iff]
      · -- v is an input port
        have hst : visitVar st v
            = ⟨st.inputVars ++ [v], st.outputVars, st.isFirstOutput⟩ := by
          simp [visitVar, hio, hin]
        rw [hst]
        simp [hin]

/-- C7: the port classifier yields the primitive's input ports and output
ports each in declaration order, ignores non-IO variables, and sets the
first-IO-is-output flag exactly when the first classified IO port is an
output; the classification state carries nothing else. -/
theorem udp_classify_ports (vs : List UVar) :
    (classifyPorts vs).inputVars = vs.filter (fun v => v.isIo && v.isInput)
    ∧ (classifyPorts vs).outputVars = vs.filter (fun v => v.isIo && !v.isInput)
    ∧ (classifyPorts vs).isFirstOutput
        = (match vs.find? (fun v => v.isIo) with
           | some v => !v.isInput
           | none => false) := by
  refine ⟨?_, ?_, ?_⟩
  · rw [classifyPorts, foldl_visitVar_inputVars]
    rfl
  · rw [classifyPorts, foldl_visitVar_outputVars]
    rfl
  · rw [classifyPorts, foldl_visitVar_flag]
    simp

theorem classify_inputs_ne_nil (vs : List UVar)
    (hout : (classifyPorts vs).outputVars ≠ [])
    (hflag : (classifyPorts vs).isFirstOutput = false) :
    (classifyPorts vs).inputVars ≠ [] := by
  rw [classifyPorts, foldl_visitVar_outputVars] at hout
  rw [classifyPorts, foldl_visitVar_flag] at hflag
  rw [classifyPorts, foldl_visitVar_inputVars]
  simp only [List.nil_append] at hout hflag ⊢
  match hfind : vs.find? (fun v => v.isIo) with
  | none =>
    exfalso
    apply hout
    rw [List.filter_eq_nil_iff]
    intro x hx hpx
    have hnio := List.find?_eq_none.mp hfind x hx
    simp only [Bool.and_eq_true] at hpx
    simp [hpx.1] at hnio
  | some u =>
    have hmem := List.mem_of_find?_eq_some hfind
    have hio := List.find?_some hfind
    rw [hfind] at hflag
    simp only [List.isEmpty_nil, Bool.true_and, Bool.false_or] at hflag
    have huin : u.isInput = true := by
      cases h : u.isInput
      · simp [h] at hflag
      · rfl
    intro hnil
    have hu : u ∈ vs.filter (fun v => v.isIo && v.isInput) := by
      apply List.mem_filter.mpr
      refine ⟨hmem, ?_⟩
      simp only [Bool.and_eq_true]
      exact ⟨hio, huin⟩
    rw [hnil] at hu
    exact absurd hu (List.not_mem_nil u)

/-- C10: in the placement-error branch (`m_inputVars[0]->v3error`), the
access to the first element of `m_inputVars` is in bounds: whenever the
classifier produced at least one output port and left `m_isFirstOutput`
false, the classified input list is nonempty (the first classified IO
port must have been an input). -/
theorem udp_placement_access_inbounds (vs : List UVar)
    (hout : (classifyPorts vs).outputVars ≠ [])
    (hflag : (classifyPorts vs).isFirstOutput = false) :
    (classifyPorts vs).inputVars ≠ [] :=
  classify_inputs_ne_nil vs hout hflag

theorem udp_placement_access_inbounds_witness :
    (classifyPorts [⟨"a", true, true, UDType.basic false, 1⟩,
        ⟨"q", true, false, UDType.basic false, 1⟩]).inputVars ≠ [] :=
  udp_placement_access_inbounds _ (by decide) (by decide)

theorem udpTableValidate_ok (st : ClassifyState) (o : UVar) (os : List UVar)
    (ho : st.outputVars = o :: os)
    (hin : st.isFirstOutput = false → st.inputVars ≠ []) :
    udpTableValidate st = Except.ok
      ((if st.outputVars.length ≠ 1 then [Diag.outputCount st.outputVars.length] else [])
        ++ ((if st.isFirstOutput = false then [Diag.firstPortNotOutput] else [])
          ++ (if isLogicValued o then [Diag.sequentialUdp] else [])), o) := by
  have hz : st.outputVars.getLast? = some ((o :: os).getLast (by simp)) := by
    rw [ho]
    exact List.getLast?_eq_getLast _ _
  have hhead : st.outputVars.head? = some o := by
    rw [ho]
    rfl
  have hn0 : st.outputVars.length ≠ 0 := by
    rw [ho]
    simp
  by_cases h1 : st.outputVars.length ≠ 1
  · by_cases h2 : st.isFirstOutput = false
    · obtain ⟨i, is, hi⟩ : ∃ i is, st.inputVars = i :: is := by
        rcases hx : st.inputVars with _ | ⟨i, is⟩
        · exact absurd hx (hin h2)
        · exact ⟨i, is, rfl⟩
      simp [udpTableValidate, h1, h2, hz, hhead, hi, hn0]
    · simp [udpTableValidate, h1, h2, hz, hhead, hn0]
  · by_cases h2 : st.isFirstOutput = false
    · obtain ⟨i, is, hi⟩ : ∃ i is, st.inputVars = i :: is := by
        rcases hx : st.inputVars with _ | ⟨i, is⟩
        · exact absurd hx (hin h2)
        · exact ⟨i, is, rfl⟩
      simp [udpTableValidate, h1, h2, hz, hhead, hi, hn0]
    · simp [udpTableValidate, h1, h2, hz, hhead, hn0]

/-- C8: with at least one classified output port, validation resolves the
output port to the first classified output and emits the sequential-UDP
diagnostic exactly when that port's type is logic-valued (a basic dtype
with the logic flag); a non-logic-valued output port never receives it. -/
theorem udp_sequential_diag (vs : List UVar)
    (hout : (classifyPorts vs).outputVars ≠ []) :
    ∃ diags ofield,
      udpTableValidate (classifyPorts vs) = Except.ok (diags, ofield)
      ∧ (classifyPorts vs).outputVars.head? = some ofield
      ∧ (Diag.sequentialUdp ∈ diags ↔ isLogicValued ofield = true) := by
  obtain ⟨o, os, ho⟩ : ∃ o os, (classifyPorts vs).outputVars = o :: os := by
    rcases h : (classifyPorts vs).outputVars with _ | ⟨o, os⟩
    · exact absurd h hout
    · exact ⟨o, os, rfl⟩
  refine ⟨_, o,
    udpTableValidate_ok _ o os ho
      (fun hf => classify_inputs_ne_nil vs (by rw [ho]; simp) hf),
    by rw [ho]; rfl, ?_⟩
  constructor
  · intro hmem
    rcases List.mem_append.mp hmem with h | h
    · exfalso
      revert h
      split <;> simp
    · rcases List.mem_append.mp h with h | h
      · exfalso
        revert h
        split <;> simp
      · revert h
        split
        · intro _
          assumption
        · simp
  · intro hl
    apply List.mem_append.mpr
    right
    apply List.mem_append.mpr
    right
    simp [hl]

theorem udp_sequential_diag_witness :
    ∃ diags ofield,
      udpTableValidate (classifyPorts [⟨"q", true, false, UDType.basic true, 1⟩,
          ⟨"a", true, true, UDType.basic false, 1⟩]) = Except.ok (diags, ofield)
      ∧ (classifyPorts [⟨"q", true, false, UDType.basic true, 1⟩,
          ⟨"a", true, true, UDType.basic false, 1⟩]).outputVars.head? = some ofield
      ∧ (Diag.sequentialUdp ∈ diags ↔ isLogicValued ofield = true) :=
  udp_sequential_diag _ (by decide)

/-- C5 (failing input): for a primitive whose classified output-port count
is zero (here: a single input port and nothing else), the source reaches
`m_outputVars.back()->v3error(...)` with `m_outputVars` empty, an
out-of-bounds access (undefined behavior) taken before any diagnostic is
emitted, so the claimed crash-free diagnostic does not happen. -/
theorem udp_zero_output_crash :
    udpTableValidate (classifyPorts [⟨"a", true, true, UDType.nonBasic, 1⟩])
      = Except.error UdpCrash.outputsBack := by
  rfl

/-! ## Chain construction and its evaluation -/

theorem execStmts_nil (wenv env : String → Nat) : execStmts wenv env [] = [] := by
  simp [execStmts]

theorem execStmts_cons (wenv env : String → Nat) (s : UStmt) (rest : List UStmt) :
    execStmts wenv env (s :: rest) = execStmt wenv env s ++ execStmts wenv env rest := by
  simp [execStmts]

theorem execStmt_assign (wenv env : String → Nat) (nm : String) (v : BitVal) :
    execStmt wenv env (UStmt.assign nm v) = [(nm, v)] := by
  simp [execStmt]

theorem execStmt_ifs (wenv env : String → Nat) (c : UExpr) (t e : List UStmt) :
    execStmt wenv env (UStmt.ifs c t e)
      = if evalE wenv env c ≠ 0 then execStmts wenv env t else execStmts wenv env e := by
  simp [execStmt]

theorem visitUdpTableLine_chain (w : Nat) (oname : String) (st : LineState) (r : UdpRow) :
    (visitUdpTableLine w oname st r).chain = st.chain ++ [buildRowIf w oname r] := by
  by_cases h : r.isyms.length ≠ w <;> simp [visitUdpTableLine, h]

theorem foldl_lines_chain (w : Nat) (oname : String) (rows : List UdpRow) :
    ∀ st : LineState,
    (rows.foldl (visitUdpTableLine w oname) st).chain
      = st.chain ++ rows.map (buildRowIf w oname) := by
  induction rows with
  | nil =>
    intro st
    simp
  | cons r rest ih =>
    intro st
    rw [List.foldl_cons, ih, visitUdpTableLine_chain]
    simp

theorem closeChain_map (w : Nat) (oname : String) (rows : List UdpRow) :
    closeChain (rows.map (buildRowIf w oname)) = nestRows w oname rows := by
  induction rows with
  | nil => rfl
  | cons r rest ih =>
    simp [closeChain, nestRows, ih]

theorem evalE_rowCond (w : Nat) (syms : List Char) (wenv env : String → Nat) :
    evalE wenv env (rowCondExpr w syms)
      = if (buildMaskCmp w syms).1 &&& env ifieldName = (buildMaskCmp w syms).2
        then 1 else 0 := by
  rfl

theorem exec_nestRows (w : Nat) (oname : String) (wenv env : String → Nat) :
    ∀ rows : List UdpRow,
    execStmts wenv env (nestRows w oname rows)
      = (match rows.find? (rowMatches w (env ifieldName)) with
         | some r => [(oname, resolveOval r.osym)]
         | none => []) := by
  intro rows
  induction rows with
  | nil => simp [nestRows, execStmts_nil]
  | cons r rest ih =>
    have hcond := evalE_rowCond w r.isyms wenv env
    simp only [nestRows, execStmts_cons, execStmts_nil, List.append_nil, execStmt_ifs]
    by_cases hm : rowMatches w (env ifieldName) r = true
    · have hnz : evalE wenv env (buildRowIf w oname r).cond ≠ 0 := by
        rw [show (buildRowIf w oname r).cond = rowCondExpr w r.isyms from rfl, hcond]
        simp only [rowMatches, decide_eq_true_eq] at hm
        simp [hm]
      rw [if_pos hnz, List.find?_cons_of_pos _ hm]
      rw [show (buildRowIf w oname r).thenp
            = [UStmt.assign oname (resolveOval r.osym)] from rfl]
      rw [execStmts_cons, execStmt_assign, execStmts_nil]
      rfl
    · have hz : ¬evalE wenv env (buildRowIf w oname r).cond ≠ 0 := by
        rw [show (buildRowIf w oname r).cond = rowCondExpr w r.isyms from rfl, hcond]
        simp only [rowMatches, decide_eq_true_eq] at hm
        simp [hm]
      rw [if_neg hz, List.find?_cons_of_neg _ (by simpa using hm)]
      exact ih

/-- C1: for a table's rows in declaration order, the imperative tail
chaining of `visit(AstUdpTableLine*)` produces exactly the nested
structure in which the first row's conditional is the sole statement of
the process body and each later row's conditional is the else branch of
the previous one; consequently, on any field value the chain performs the
assignment of the earliest-declared matching row, and performs no
assignment at all when no row matches (there is no trailing unconditional
branch). -/
theorem udp_chain_first_match (w : Nat) (oname : String) (rows : List UdpRow)
    (wenv env : String → Nat) :
    closeChain (processLines w oname rows).chain = nestRows w oname rows
    ∧ execStmts wenv env (closeChain (processLines w oname rows).chain)
        = (match rows.find? (rowMatches w (env ifieldName)) with
           | some r => [(oname, resolveOval r.osym)]
           | none => []) := by
  have hc : closeChain (processLines w oname rows).chain = nestRows w oname rows := by
    rw [processLines, foldl_lines_chain]
    rw [show (⟨[], []⟩ : LineState).chain = [] from rfl, List.nil_append]
    exact closeChain_map w oname rows
  refine ⟨hc, ?_⟩
  rw [hc]
  exact exec_nestRows w oname wenv env rows

/-- C9: a table row whose input-symbol count differs from the primitive's
input count raises the arity diagnostic naming the expected and the
actual counts, and the row is still compiled best-effort: its conditional
is appended to the chain all the same, so the state after the row is not
the unchanged state. -/
theorem udp_row_arity_best_effort (w : Nat) (oname : String) (st : LineState)
    (r : UdpRow) (h : r.isyms.length ≠ w) :
    (visitUdpTableLine w oname st r).diags
        = st.diags ++ [Diag.inputArity w r.isyms.length]
    ∧ (visitUdpTableLine w oname st r).chain = st.chain ++ [buildRowIf w oname r] := by
  constructor
  · simp [visitUdpTableLine, h]
  · exact visitUdpTableLine_chain w oname st r

theorem udp_row_arity_best_effort_witness :
    (visitUdpTableLine 2 "q" ⟨[], []⟩ ⟨['0'], '1'⟩).diags = [Diag.inputArity 2 1]
    ∧ (visitUdpTableLine 2 "q" ⟨[], []⟩ ⟨['0'], '1'⟩).chain = [buildRowIf 2 "q" ⟨['0'], '1'⟩] :=
  udp_row_arity_best_effort 2 "q" ⟨[], []⟩ ⟨['0'], '1'⟩ (by decide)

theorem getD_map_of_lt {α β : Type} (f : α → β) (l : List α) (i : Nat) (d : β)
    (h : i < l.length) :
    (l.map f).getD i d = f (l.get ⟨i, h⟩) := by
  rw [List.getD_eq_getElem?_getD, List.getElem?_map, List.getElem?_eq_getElem h]
  rfl

/-- C2: for a row whose input symbols are s_0 .. s_(n-1), mask bit i is 1
exactly when s_i is 0 or 1, and compare bit i equals the numeric value of
s_i when mask bit i is 1 and is 0 otherwise, with bit index i following
row order. -/
theorem udp_mask_cmp_bits (syms : List Char) (i : Nat) (h : i < syms.length) :
    ((buildMaskCmp syms.length syms).1.testBit i
        = (syms.get ⟨i, h⟩ == '0' || syms.get ⟨i, h⟩ == '1'))
    ∧ ((buildMaskCmp syms.length syms).2.testBit i
        = if (syms.get ⟨i, h⟩ == '0' || syms.get ⟨i, h⟩ == '1') = true
          then (syms.get ⟨i, h⟩ == '1') else false) := by
  rw [buildMaskCmp_eq (le_refl _)]
  constructor
  · rw [natOfBits_testBit, getD_map_of_lt symMaskBit syms i false h]
    rfl
  · rw [natOfBits_testBit, getD_map_of_lt symCmpBit syms i false h]
    generalize syms.get ⟨i, h⟩ = s
    by_cases h1 : s = '1'
    · subst h1
      decide
    · by_cases h0 : s = '0'
      · subst h0
        decide
      · simp [symCmpBit, h0, h1]

theorem udp_mask_cmp_bits_witness :
    ((buildMaskCmp 3 ['x', '0', '1']).1.testBit 1 = true)
    ∧ ((buildMaskCmp 3 ['x', '0', '1']).2.testBit 1 = false) := by
  have h := udp_mask_cmp_bits ['x', '0', '1'] 1 (by decide)
  exact ⟨h.1.trans (by decide), h.2.trans (by decide)⟩

/-! ## Concatenation layout -/

theorem concat_fold_eval (wenv env : String → Nat) :
    ∀ (l : List String) (acc : UExpr), (∀ nm ∈ l, wenv nm = 1) →
    evalE wenv env (l.foldl (fun a nm => UExpr.concat (UExpr.varref nm) a) acc)
      = evalE wenv env acc + 2 ^ ewidth wenv acc * valLE (l.map env) := by
  intro l
  induction l with
  | nil =>
    intro acc _
    simp [valLE]
  | cons nm rest ih =>
    intro acc hw
    rw [List.foldl_cons, ih _ (fun x hx => hw x (List.mem_cons_of_mem _ hx))]
    have h1 : wenv nm = 1 := hw nm (List.mem_cons_self _ _)
    simp only [evalE, ewidth, h1, List.map_cons, valLE]
    rw [Nat.add_comm 1 (ewidth wenv acc), Nat.pow_add]
    ring

theorem concatOfInputs_eval (wenv env : String → Nat) (first : String)
    (rest : List String) (hw : ∀ nm ∈ first :: rest, wenv nm = 1) :
    evalE wenv env (concatOfInputs first rest) = valLE ((first :: rest).map env) := by
  rw [concatOfInputs, concat_fold_eval wenv env rest (UExpr.varref first)
    (fun x hx => hw x (List.mem_cons_of_mem _ hx))]
  have h1 : wenv first = 1 := hw first (List.mem_cons_self _ _)
  simp only [evalE, ewidth, h1, List.map_cons, valLE, pow_one]

/-- C3: the synthesized field concatenation over the declared input ports
(seeded with the first port, each later port prepended as the new most
significant part) lays the ports out in declaration order: for 1-bit
ports, bit i of the field value is the i-th declared input port's value —
in particular bit 0 is the first port's value and bit n-1 the last
port's. -/
theorem udp_concat_bit_layout (first : String) (rest : List String)
    (wenv env : String → Nat)
    (hw : ∀ nm ∈ first :: rest, wenv nm = 1)
    (hv : ∀ nm ∈ first :: rest, env nm < 2) :
    ∀ i (h : i < (first :: rest).length),
      (evalE wenv env (concatOfInputs first rest)).testBit i
        = decide (env ((first :: rest).get ⟨i, h⟩) = 1) := by
  intro i h
  rw [concatOfInputs_eval wenv env first rest hw]
  rw [valLE_testBit _ ?hb i]
  case hb =>
    intro v hv2
    obtain ⟨nm, hnm, rfl⟩ := List.mem_map.mp hv2
    exact hv nm hnm
  rw [getD_map_of_lt env _ i 0 h]

theorem udp_concat_bit_layout_witness :
    (evalE (fun _ => 1) (fun nm => if nm = "a" then 1 else 0)
        (concatOfInputs "a" ["b"])).testBit 1 = false :=
  (udp_concat_bit_layout "a" ["b"] (fun _ => 1) (fun nm => if nm = "a" then 1 else 0)
    (by decide) (by decide) 1 (by decide)).trans (by decide)

/-- C4: each row's emitted conditional tests that the input field ANDed
with the row's mask equals the row's compare value (the source builds
`AstEq(AstAnd(maskConst, ifieldRef), cmpConst)`), and its then branch
assigns the output port the 1-bit value resolved from the row's output
symbol: 0 for symbol 0, 1 for symbol 1, and the unknown/don't-care X
value — not an error — for any other symbol. -/
theorem udp_row_conditional (w : Nat) (oname : String) (r : UdpRow)
    (wenv env : String → Nat) :
    (buildRowIf w oname r).cond
        = UExpr.eq (UExpr.and (UExpr.const w (buildMaskCmp w r.isyms).1)
            (UExpr.varref ifieldName)) (UExpr.const w (buildMaskCmp w r.isyms).2)
    ∧ (evalE wenv env (buildRowIf w oname r).cond ≠ 0
        ↔ env ifieldName &&& (buildMaskCmp w r.isyms).1 = (buildMaskCmp w r.isyms).2)
    ∧ (buildRowIf w oname r).thenp = [UStmt.assign oname (resolveOval r.osym)]
    ∧ resolveOval '0' = BitVal.zero
    ∧ resolveOval '1' = BitVal.one
    ∧ (r.osym ≠ '0' → r.osym ≠ '1' → resolveOval r.osym = BitVal.x) := by
  refine ⟨rfl, ?_, rfl, rfl, rfl, ?_⟩
  · rw [show (buildRowIf w oname r).cond = rowCondExpr w r.isyms from rfl,
      evalE_rowCond, Nat.land_comm]
    split
    · rename_i hx
      simp [hx]
    · rename_i hx
      simp [hx]
  · intro h0 h1
    simp [resolveOval, h0, h1]

theorem udp_row_conditional_witness :
    resolveOval 'b' = BitVal.x :=
  (udp_row_conditional 2 "q" ⟨['0', '1'], 'b'⟩ (fun _ => 2) (fun _ => 0)).2.2.2.2.2
    (by decide) (by decide)

/-! ## Primitive surgery -/

theorem varsOf_append (l1 l2 : List PrimNode) :
    varsOf (l1 ++ l2) = varsOf l1 ++ varsOf l2 := by
  induction l1 with
  | nil => rfl
  | cons n rest ih =>
    cases n <;> simp [varsOf, ih]

theorem insertAfterLastInput_append (x : PrimNode) (a : List PrimNode) (v : UVar)
    (b : List PrimNode) (hv : isInputVarNode (PrimNode.var v) = true)
    (hb : ∀ y ∈ b, isInputVarNode y = false) :
    insertAfterLastInput x (a ++ PrimNode.var v :: b)
      = a ++ PrimNode.var v :: x :: b := by
  induction a with
  | nil =>
    have hbany : b.any isInputVarNode = false := by
      rw [List.any_eq_false]
      intro y hy
      simp [hb y hy]
    simp [insertAfterLastInput, hbany, hv]
  | cons n rest ih =>
    have hany : (rest ++ PrimNode.var v :: b).any isInputVarNode = true := by
      rw [List.any_eq_true]
      exact ⟨PrimNode.var v, by simp, hv⟩
    simp [insertAfterLastInput, hany, ih]

/-- C6: after the pass processes a primitive whose children are a prefix
containing the ports, then the UDP table, then a suffix — with `v` the
last input port and at least one classified output — the new field
variable (of width = input count) sits in the child list immediately
after `v`, the table node's position now holds the synthesized field
assignment immediately followed by the always process, and the table node
itself has been detached and handed to `pushDeletep`. -/
theorem udp_table_surgery (children a b post : List PrimNode) (v o : UVar)
    (os : List UVar) (rows : List UdpRow)
    (hsplit : splitAtTable children = some (a ++ PrimNode.var v :: b, rows, post))
    (hv : isInputVarNode (PrimNode.var v) = true)
    (hb : ∀ y ∈ b, isInputVarNode y = false)
    (ho : (classifyPorts (varsOf (a ++ PrimNode.var v :: b))).outputVars = o :: os) :
    ∃ (ce : UExpr) (body : List UStmt) (ds : List Diag),
      processPrim children = Except.ok
        ⟨a ++ PrimNode.var v
            :: PrimNode.var (ifieldUVar
                 (classifyPorts (varsOf (a ++ PrimNode.var v :: b))).inputVars.length)
            :: (b ++ PrimNode.assignW ifieldName ce
                  :: PrimNode.always body :: post),
         ds, [PrimNode.udptable rows]⟩ := by
  have hvin : v ∈ (classifyPorts (varsOf (a ++ PrimNode.var v :: b))).inputVars := by
    rw [classifyPorts, foldl_visitVar_inputVars]
    simp only [List.nil_append]
    apply List.mem_filter.mpr
    constructor
    · rw [varsOf_append]
      simp [varsOf]
    · simpa [isInputVarNode] using hv
  obtain ⟨hd, tl, hhd⟩ :
      ∃ hd tl, (classifyPorts (varsOf (a ++ PrimNode.var v :: b))).inputVars = hd :: tl := by
    rcases hx : (classifyPorts (varsOf (a ++ PrimNode.var v :: b))).inputVars with _ | ⟨hd, tl⟩
    · rw [hx] at hvin
      exact absurd hvin (List.not_mem_nil v)
    · exact ⟨hd, tl, rfl⟩
  have hval := udpTableValidate_ok (classifyPorts (varsOf (a ++ PrimNode.var v :: b)))
    o os ho (fun _ => by rw [hhd]; exact List.cons_ne_nil hd tl)
  have hlast : (classifyPorts (varsOf (a ++ PrimNode.var v :: b))).inputVars.getLast?
      = some ((hd :: tl).getLast (List.cons_ne_nil hd tl)) := by
    rw [hhd]
    exact List.getLast?_eq_getLast _ _
  have hhead : (classifyPorts (varsOf (a ++ PrimNode.var v :: b))).inputVars.head?
      = some hd := by
    rw [hhd]
    rfl
  refine ⟨concatOfInputs hd.name
      ((classifyPorts (varsOf (a ++ PrimNode.var v :: b))).inputVars.tail.map UVar.name),
    closeChain (processLines
        (classifyPorts (varsOf (a ++ PrimNode.var v :: b))).inputVars.length
        o.name rows).chain,
    ((if (classifyPorts (varsOf (a ++ PrimNode.var v :: b))).outputVars.length ≠ 1 then
        [Diag.outputCount (classifyPorts (varsOf (a ++ PrimNode.var v :: b))).outputVars.length]
      else []) ++
      ((if (classifyPorts (varsOf (a ++ PrimNode.var v :: b))).isFirstOutput = false then
          [Diag.firstPortNotOutput] else []) ++
        (if isLogicValued o then [Diag.sequentialUdp] else [])))
      ++ (processLines
          (classifyPorts (varsOf (a ++ PrimNode.var v :: b))).inputVars.length
          o.name rows).diags, ?_⟩
  simp only [processPrim, hsplit, hval, hlast, hhead]
  rw [insertAfterLastInput_append _ a v b hv hb]
  simp [List.append_assoc]

theorem udp_table_surgery_witness :
    ∃ (ce : UExpr) (body : List UStmt) (ds : List Diag),
      processPrim [PrimNode.var ⟨"q", true, false, UDType.basic false, 1⟩,
          PrimNode.var ⟨"a1", true, true, UDType.basic false, 1⟩,
          PrimNode.udptable [⟨['0'], '1'⟩]] = Except.ok
        ⟨[PrimNode.var ⟨"q", true, false, UDType.basic false, 1⟩]
            ++ PrimNode.var ⟨"a1", true, true, UDType.basic false, 1⟩
            :: PrimNode.var (ifieldUVar
                 (classifyPorts (varsOf ([PrimNode.var ⟨"q", true, false, UDType.basic false, 1⟩]
                   ++ PrimNode.var ⟨"a1", true, true, UDType.basic false, 1⟩ :: []))).inputVars.length)
            :: ([] ++ PrimNode.assignW ifieldName ce
                  :: PrimNode.always body :: []),
         ds, [PrimNode.udptable [⟨['0'], '1'⟩]]⟩ :=
  udp_table_surgery
    [PrimNode.var ⟨"q", true, false, UDType.basic false, 1⟩,
      PrimNode.var ⟨"a1", true, true, UDType.basic false, 1⟩,
      PrimNode.udptable [⟨['0'], '1'⟩]]
    [PrimNode.var ⟨"q", true, false, UDType.basic false, 1⟩] []
    [] ⟨"a1", true, true, UDType.basic false, 1⟩ ⟨"q", true, false, UDType.basic false, 1⟩
    [] [⟨['0'], '1'⟩] rfl (by decide) (by intro y hy; cases hy) (by decide)

end V3Udp
